import Mathlib

/-!
Shallow embedding of the markdown renderer in `src/utils/markdown-renderer.jsx`.
Strings are modelled as `List Char`; each JavaScript helper becomes a Lean
function with the same name where possible.  The regular expressions used by
the source are fixed, so each one is specialised to a deterministic scanning
function (or, for the table pre-pass, to a small backtracking matcher) with
the exact JavaScript backtracking semantics.
-/

namespace Skillscope

/-- The backtick character (code 96). -/
def backtick : Char := Char.ofNat 96

/-- JavaScript `\s` / `String.prototype.trim` whitespace (common subset). -/
def isJsWs (c : Char) : Bool :=
  c = ' ' ∨ c = '\t' ∨ c = '\n' ∨ c = '\r' ∨ c = Char.ofNat 11 ∨ c = Char.ofNat 12 ∨
  c = Char.ofNat 160 ∨ c = Char.ofNat 0x2028 ∨ c = Char.ofNat 0x2029 ∨ c = Char.ofNat 0xFEFF

/-- JavaScript `\w` word characters. -/
def isWordChar (c : Char) : Bool :=
  ('a' ≤ c ∧ c ≤ 'z') ∨ ('A' ≤ c ∧ c ≤ 'Z') ∨ ('0' ≤ c ∧ c ≤ '9') ∨ c = '_'

/-- JavaScript `String.prototype.trim`. -/
def jsTrim (s : List Char) : List Char :=
  ((s.dropWhile isJsWs).reverse.dropWhile isJsWs).reverse

/-- JavaScript `String.prototype.split` with a single-character separator. -/
def splitOnChar (c : Char) : List Char → List (List Char)
  | [] => [[]]
  | x :: rest =>
    if x = c then [] :: splitOnChar c rest
    else
      match splitOnChar c rest with
      | h :: t => (x :: h) :: t
      | [] => [[x]]

/-- JavaScript `Array.prototype.join('\n')`. -/
def joinNL (ls : List (List Char)) : List Char := List.intercalate ['\n'] ls

/-- JavaScript `String.prototype.substring a b` for `a ≤ b` (used so in source). -/
def slice (s : List Char) (a b : Nat) : List Char := (s.take b).drop a

/-- Index (relative) of the first character satisfying `p`, or the length if none. -/
def findStopFrom (p : Char → Bool) : List Char → Nat
  | [] => 0
  | c :: rest => if p c then 0 else findStopFrom p rest + 1

/-- Absolute index of the first character at position `≥ i` satisfying `p`
    (or `max i s.length` if none). -/
def stopIdx (p : Char → Bool) (s : List Char) (i : Nat) : Nat :=
  i + findStopFrom p (s.drop i)

/-- `text.replace(/\r\n/g, '\n')` (markdown-renderer.jsx line 16, first step). -/
def replCrlf : List Char → List Char
  | [] => []
  | [c] => [c]
  | c :: d :: rest =>
    if c = '\r' ∧ d = '\n' then '\n' :: replCrlf rest
    else c :: replCrlf (d :: rest)

/-- `text.replace(/\r/g, '\n')` (markdown-renderer.jsx line 16, second step). -/
def replCr (s : List Char) : List Char := s.map (fun c => if c = '\r' then '\n' else c)

/-- Line-ending normalization performed by `parseMarkdown` (line 16). -/
def normalizeEol (s : List Char) : List Char := replCr (replCrlf s)

/-! ### Inline span parser (`parseInlineMarkdown`, lines 577–703) -/

/-- The five inline pattern kinds, in registration order. -/
inductive MKind where
  | codeK | linkK | autoK | boldK | italK
deriving DecidableEq

/-- One regex match as collected by the source (lines 600–608). -/
structure RMatch where
  kind : MKind
  start : Nat
  stop : Nat
  content : List Char
  url : List Char
deriving DecidableEq

/-- Inline tokens: the element kinds built at lines 635–692. -/
inductive Token where
  | text (s : List Char)
  | bold (s : List Char)
  | italic (s : List Char)
  | code (s : List Char)
  | link (t u : List Char)
  | autolink (u : List Char)
deriving DecidableEq

/-- Match of ``/`([^`\n]+)`/`` at position `i` (deterministic: the class bars
    backticks, so the closing backtick is the next one). -/
def codeMatchAt (s : List Char) (i : Nat) : Option RMatch :=
  if s[i]? = some backtick then
    let k := stopIdx (fun c => c = backtick ∨ c = '\n') s (i + 1)
    if s[k]? = some backtick ∧ i + 1 < k then
      some ⟨.codeK, i, k + 1, slice s (i + 1) k, []⟩
    else none
  else none

/-- Match of `/\[([^\]]+)\]\(([^)]+)\)/` at position `i`. -/
def linkMatchAt (s : List Char) (i : Nat) : Option RMatch :=
  if s[i]? = some '[' then
    let k1 := stopIdx (fun c => c = ']') s (i + 1)
    if s[k1]? = some ']' ∧ i + 1 < k1 ∧ s[k1 + 1]? = some '(' then
      let k2 := stopIdx (fun c => c = ')') s (k1 + 2)
      if s[k2]? = some ')' ∧ k1 + 2 < k2 then
        some ⟨.linkK, i, k2 + 1, slice s (i + 1) k1, slice s (k1 + 2) k2⟩
      else none
    else none
  else none

/-- Is position `n` (possibly out of range) a word character? -/
def isWordAt (s : List Char) (n : Nat) : Bool :=
  match s[n]? with
  | some c => isWordChar c
  | none => false

/-- JavaScript `\b` at position `j ≥ 1`. -/
def bdryAt (s : List Char) (j : Nat) : Bool := isWordAt s (j - 1) != isWordAt s j

/-- Largest `j` with `lo < j ≤ n` and a word boundary at `j` (greedy
    backtracking of the trailing `\b` of the autolink pattern). -/
def lastBoundary (s : List Char) (lo : Nat) : Nat → Option Nat
  | 0 => none
  | j + 1 =>
    if j + 1 ≤ lo then none
    else if bdryAt s (j + 1) then some (j + 1)
    else lastBoundary s lo j

/-- Match of `/\b(https?:\/\/[^\s<>()]+)\b/` at position `i`. -/
def autoMatchAt (s : List Char) (i : Nat) : Option RMatch :=
  if (i = 0 ∨ ¬ isWordAt s (i - 1)) ∧ s[i]? = some 'h' ∧ s[i + 1]? = some 't' ∧
      s[i + 2]? = some 't' ∧ s[i + 3]? = some 'p' then
    let rs : Option Nat :=
      if s[i + 4]? = some 's' ∧ s[i + 5]? = some ':' ∧ s[i + 6]? = some '/' ∧
          s[i + 7]? = some '/' then some (i + 8)
      else if s[i + 4]? = some ':' ∧ s[i + 5]? = some '/' ∧ s[i + 6]? = some '/' then
        some (i + 7)
      else none
    match rs with
    | none => none
    | some r =>
      let k := stopIdx (fun c => isJsWs c ∨ c = '<' ∨ c = '>' ∨ c = '(' ∨ c = ')') s r
      if r < k then
        match lastBoundary s r k with
        | some j => some ⟨.autoK, i, j, slice s i j, []⟩
        | none => none
      else none
  else none

/-- Match of `/\*\*([^*\n]+?)\*\*/` at position `i` (the class bars `*`, so the
    lazy content runs to the next `*`, which must start a closing `**`). -/
def boldMatchAt (s : List Char) (i : Nat) : Option RMatch :=
  if s[i]? = some '*' ∧ s[i + 1]? = some '*' then
    let k := stopIdx (fun c => c = '*' ∨ c = '\n') s (i + 2)
    if s[k]? = some '*' ∧ s[k + 1]? = some '*' ∧ i + 2 < k then
      some ⟨.boldK, i, k + 2, slice s (i + 2) k, []⟩
    else none
  else none

/-- Match of `/\*([^*\s\n][^*\n]*?[^*\s\n]|[^*\s\n])\*/` at position `i`:
    the content runs to the next `*`; its first and last character must not be
    whitespace (both alternatives combined). -/
def italMatchAt (s : List Char) (i : Nat) : Option RMatch :=
  if s[i]? = some '*' then
    let k := stopIdx (fun c => c = '*' ∨ c = '\n') s (i + 1)
    match s[i + 1]? with
    | some c1 =>
      if s[k]? = some '*' ∧ i + 1 < k ∧ ¬ isJsWs c1 ∧ ¬ isJsWs (s.getD (k - 1) ' ') then
        some ⟨.italK, i, k + 1, slice s (i + 1) k, []⟩
      else none
    | none => none
  else none

/-- The `while ((match = regex.exec(text)) !== null)` loop (lines 598–609):
    repeatedly find the leftmost match at or after `i` and continue after it. -/
def execFrom (mAt : List Char → Nat → Option RMatch) (s : List Char) :
    Nat → Nat → List RMatch
  | 0, _ => []
  | fuel + 1, i =>
    if s.length < i then []
    else
      match mAt s i with
      | some m => m :: execFrom mAt s fuel m.stop
      | none => execFrom mAt s fuel (i + 1)

/-- All matches of one pattern, left to right. -/
def execAll (mAt : List Char → Nat → Option RMatch) (s : List Char) : List RMatch :=
  execFrom mAt s (s.length + 2) 0

/-- All matches of all five patterns, in registration order (lines 596–609). -/
def allMatches (s : List Char) : List RMatch :=
  execAll codeMatchAt s ++ execAll linkMatchAt s ++ execAll autoMatchAt s ++
    execAll boldMatchAt s ++ execAll italMatchAt s

/-- Stable insertion used to model `matches.sort((a, b) => a.start - b.start)`. -/
def insertByStart (m : RMatch) : List RMatch → List RMatch
  | [] => [m]
  | b :: t => if b.start ≤ m.start then b :: insertByStart m t else m :: b :: t

/-- `matches.sort((a, b) => a.start - b.start)` (line 612), a stable sort. -/
def sortByStart (l : List RMatch) : List RMatch :=
  l.foldl (fun acc m => insertByStart m acc) []

/-- The overlap-removal sweep (lines 615–622). -/
def sweep : Nat → List RMatch → List RMatch
  | _, [] => []
  | lastEnd, m :: t => if lastEnd ≤ m.start then m :: sweep m.stop t else sweep lastEnd t

/-- `validMatches` of the source (lines 615–622). -/
def validMatches (s : List Char) : List RMatch :=
  sweep 0 (sortByStart (allMatches s))

/-- The element built for one match (lines 635–692). -/
def tokenOf (m : RMatch) : Token :=
  match m.kind with
  | .codeK => .code m.content
  | .linkK => .link m.content m.url
  | .autoK => .autolink m.content
  | .boldK => .bold m.content
  | .italK => .italic m.content

/-- The element-building loop (lines 625–700), tokens only. -/
def buildParts (s : List Char) : Nat → List RMatch → List Token
  | cur, [] => if cur < s.length then [.text (slice s cur s.length)] else []
  | cur, m :: t =>
    (if cur < m.start then [Token.text (slice s cur m.start)] else []) ++
      (tokenOf m :: buildParts s m.stop t)

/-- The element-building loop with each token paired with its source span. -/
def buildSpanned (s : List Char) : Nat → List RMatch → List ((Nat × Nat) × Token)
  | cur, [] => if cur < s.length then [((cur, s.length), .text (slice s cur s.length))] else []
  | cur, m :: t =>
    (if cur < m.start then [((cur, m.start), Token.text (slice s cur m.start))] else []) ++
      (((m.start, m.stop), tokenOf m) :: buildSpanned s m.stop t)

/-- `parseInlineMarkdown` (lines 577–703) as a token sequence.  The final
    collapse of a single plain string (line 702) is the identity on tokens, and
    an empty input is returned unchanged by the guard at line 578. -/
def parseInlineMarkdown (s : List Char) : List Token :=
  if s = [] then []
  else
    match buildParts s 0 (validMatches s) with
    | [] => [.text s]
    | ps => ps

/-! ### Table detection (`detectTable`, lines 710–785) -/

/-- Result of `detectTable`. -/
structure TableData where
  headers : List (List Char)
  rows : List (List (List Char))
deriving DecidableEq

/-- `parseRow` (lines 736–749). -/
def parseRow (line : List Char) : List (List Char) :=
  let cleaned := jsTrim line
  if ¬ cleaned.contains '|' then []
  else
    let cells := (splitOnChar '|' cleaned).map jsTrim
    let cells := match cells with
      | [] :: t => t
      | cs => cs
    match cells.getLast? with
    | some [] => cells.dropLast
    | _ => cells

/-- Characters allowed in a separator row: `[\s\-:|]`. -/
def sepCls (c : Char) : Bool := isJsWs c ∨ c = '-' ∨ c = ':' ∨ c = '|'

/-- The separator test of line 731: `includes('|') && (includes('-') ||
    includes(':') || match(/^\|[\s\-:|]+\|$/))`. -/
def hasSeparator (l : List Char) : Bool :=
  l.contains '|' ∧
    (l.contains '-' ∨ l.contains ':' ∨
      (3 ≤ l.length ∧ l.headD ' ' = '|' ∧ l.getLastD ' ' = '|' ∧ l.all sepCls))

/-- The data-row loop of lines 755–779 (with its `break` conditions). -/
def collectRows (hlen : Nat) : List (List Char) → List (List (List Char))
  | [] => []
  | line :: rest =>
    if ¬ line.contains '|' then []
    else if (line ≠ [] ∧ line.all sepCls) ∧ line.contains '-' then []
    else
      let row := parseRow line
      if row = [] then []
      else if row.length = hlen then row :: collectRows hlen rest
      else ((row ++ List.replicate (hlen - row.length) []).take hlen) :: collectRows hlen rest

/-- `detectTable` (lines 710–785). -/
def detectTable (block : List Char) : Option TableData :=
  let lines := (splitOnChar '\n' block).map jsTrim
  if lines.length < 2 then none
  else
    match lines.findIdx? (fun l => l.contains '|' ∧ 2 ≤ (splitOnChar '|' l).length) with
    | none => none
    | some tsi =>
      if lines.length ≤ tsi + 1 then none
      else if ¬ hasSeparator (lines.getD (tsi + 1) []) then none
      else
        let headers := parseRow (lines.getD tsi [])
        if headers.length = 0 ∨ headers.length < 2 then none
        else
          let rows := collectRows headers.length (lines.drop (tsi + 2))
          if rows = [] then none else some ⟨headers, rows⟩

/-! ### List detection (`detectList`, lines 792–864) -/

/-- A list item: `{ text, children }`. -/
inductive LItem where
  | mk (text : List Char) (children : List LItem)

/-- Leading-whitespace count: `getIndent` (lines 807–810). -/
def getIndent (line : List Char) : Nat := (line.takeWhile isJsWs).length

/-- Length of the prefix matched by `/^(\s*)([-*+]|\d+([.)-]))\s+/`, if any. -/
def bulletPrefixLen (line : List Char) : Option Nat :=
  let ws := line.takeWhile isJsWs
  let r := line.drop ws.length
  let marker : Option Nat :=
    match r with
    | c :: _ =>
      if c = '-' ∨ c = '*' ∨ c = '+' then some 1
      else
        let ds := r.takeWhile (·.isDigit)
        if ds ≠ [] then
          match r.getD ds.length ' ' with
          | c2 => if c2 = '.' ∨ c2 = ')' ∨ c2 = '-' then some (ds.length + 1) else none
        else none
    | [] => none
  match marker with
  | none => none
  | some mlen =>
    let after := r.drop mlen
    let trail := after.takeWhile isJsWs
    if trail = [] then none else some (ws.length + mlen + trail.length)

/-- `/^(\s*)([-*+]|\d+([.)-]))\s+/.test(line)` (line 821). -/
def isBulletLine (line : List Char) : Bool := (bulletPrefixLen line).isSome

/-- `parseItemText` (lines 812–817). -/
def parseItemText (line : List Char) : List Char :=
  match bulletPrefixLen line with
  | some n => jsTrim (line.drop n)
  | none => jsTrim line

/-- Read the item array addressed by a path of child indices (the source keeps
    JavaScript array aliases on its stack; paths model those aliases). -/
def getArr : List LItem → List Nat → List LItem
  | arr, [] => arr
  | arr, i :: rest =>
    match arr[i]? with
    | some (LItem.mk _ c) => getArr c rest
    | none => []

/-- Apply `f` to the item array addressed by a path. -/
def modifyArr (f : List LItem → List LItem) : List LItem → List Nat → List LItem
  | arr, [] => f arr
  | arr, i :: rest =>
    match arr[i]? with
    | some (LItem.mk t c) => arr.set i (LItem.mk t (modifyArr f c rest))
    | none => arr

/-- Append continuation text to the last item of an array (lines 823–831). -/
def appendCont (line : List Char) (arr : List LItem) : List LItem :=
  match arr.getLast? with
  | some (LItem.mk t c) => arr.dropLast ++ [LItem.mk (jsTrim (t ++ ' ' :: jsTrim line)) c]
  | none => arr

/-- State of the `detectList` walk: the root forest and the indent stack
    (head = top); each frame holds the indent and the path of its array. -/
def listStep (st : List LItem × List (Nat × List Nat)) (line : List Char) :
    List LItem × List (Nat × List Nat) :=
  let (root, stack) := st
  let indent := getIndent line
  if ¬ isBulletLine line then
    let path := match stack.head? with
      | some (_, p) => p
      | none => []
    (modifyArr (appendCont line) root path, stack)
  else
    let stack := stack.dropWhile (fun f => indent < f.1)
    let (parent, stack) :=
      match stack.head? with
      | none => (([] : List Nat), stack)
      | some (ti, tp) =>
        if indent = ti then (tp, stack)
        else if ti < indent then
          let arr := getArr root tp
          match arr.length with
          | 0 => (tp, (indent, tp) :: stack)
          | n + 1 => (tp ++ [n], (indent, tp ++ [n]) :: stack)
        else (([] : List Nat), stack)
    let root := modifyArr (fun arr => arr ++ [LItem.mk (parseItemText line) []]) root parent
    let stack := if stack = [] then [(indent, ([] : List Nat))] else stack
    (root, stack)

/-- The `clean` normalization (lines 857–860); `fuel` bounds the nesting depth
    (any value at least the depth gives the value of the source's `clean`). -/
def cleanItems : Nat → List LItem → List LItem
  | 0, _ => []
  | fuel + 1, arr =>
    arr.map fun it =>
      match it with
      | .mk t c => .mk t (if c.isEmpty then [] else cleanItems fuel c)

/-- `detectList` (lines 792–864); `true` means an ordered list. -/
def detectList (block : List Char) : Option (Bool × List LItem) :=
  let lines := (splitOnChar '\n' block).filter (fun l => jsTrim l ≠ [])
  match lines with
  | [] => none
  | l0 :: _ =>
    let isUnordered : Bool :=
      match l0 with
      | c :: rest => (c = '-' ∨ c = '*' ∨ c = '+') ∧ isJsWs (rest.headD 'x')
      | [] => false
    let isOrdered : Bool :=
      let ds := l0.takeWhile (·.isDigit)
      ds ≠ [] ∧
        (let c2 := l0.getD ds.length ' '
         (c2 = '.' ∨ c2 = ')' ∨ c2 = '-') ∧ isJsWs (l0.getD (ds.length + 1) 'x'))
    if ¬ isUnordered ∧ ¬ isOrdered then none
    else
      let (root, _) := lines.foldl listStep ([], [])
      some (isOrdered, cleanItems (lines.length + 1) root)

/-! ### Block elements and block classification (`parseMarkdown`, lines 12–570) -/

/-- The block-level display structures that `parseMarkdown` pushes.  Each
    constructor carries the data the corresponding JSX element is built from;
    keys and styling are presentation only. -/
inductive Element where
  | header (level : Nat) (content : List Token)
  | codeBlock (language : Option (List Char)) (content : List Char)
  | hr
  | blockquote (content : List Token)
  | table (headers : List (List Char)) (rows : List (List (List Char)))
  | list (ordered : Bool) (items : List LItem)
  | paragraph (lines : List (List Token))

/-- `getHeaderClass` keeps the level as is; the tag uses `min level 6`. -/
def headerLevel (level : Nat) : Nat := min level 6

/-- Match of `/^(#{1,6})\s*(.+)$/` against a single line (greedy `#{1,6}` and
    `\s*` with JavaScript backtracking; `(.+)` must capture at least one
    character). -/
def headerMatch (line : List Char) : Option (Nat × List Char) :=
  let a := (line.takeWhile (· = '#')).length
  if a = 0 then none
  else
    let n := min a 6
    let r := line.drop n
    if r ≠ [] then
      let t := r.dropWhile isJsWs
      if t ≠ [] then some (n, t) else some (n, [r.getLastD ' '])
    else if 2 ≤ a then some (a - 1, ['#'])
    else none

/-- Relative index of the first occurrence of three consecutive backticks. -/
def idxOf3 : List Char → Option Nat
  | a :: b :: c :: rest =>
    if a = backtick ∧ b = backtick ∧ c = backtick then some 0
    else (idxOf3 (b :: c :: rest)).map (· + 1)
  | _ => none

/-- The `<pre>` element built for a closed code fence (lines 291–321). -/
def codeElem (codeBlock : List Char) : Element :=
  let lines := splitOnChar '\n' codeBlock
  let fl := lines.headD []
  if fl ≠ [] ∧ fl.all isWordChar then
    .codeBlock (some fl) (jsTrim (joinNL (lines.drop 1)))
  else .codeBlock none (jsTrim codeBlock)

/-- `line.replace(/^>\s?/, '')` (line 342). -/
def stripQuote (line : List Char) : List Char :=
  match line with
  | '>' :: rest =>
    match rest with
    | c :: rest2 => if isJsWs c then rest2 else rest
    | [] => []
  | l => l

/-- The paragraph fallback (lines 546–566): keep the non-blank physical lines
    and parse each one inline. -/
def paragraphOf (text : List Char) : List Element :=
  let fl := (splitOnChar '\n' text).filter (fun l => jsTrim l ≠ [])
  if fl = [] then [] else [.paragraph (fl.map parseInlineMarkdown)]

/-- Content after a header inside the same block (lines 221–282). -/
def headerRest (tb : List Char) : List Element :=
  match tb.findIdx? (· = '\n') with
  | none => []
  | some ni =>
    let rest := jsTrim (tb.drop (ni + 1))
    if rest = [] then []
    else
      match detectList rest with
      | some (ord, items) => [.list ord items]
      | none => paragraphOf rest

/-- Match of `/^__TABLE_PLACEHOLDER_(\d+)__$/` plus `parseInt` (lines 54–56). -/
def placeholderIdx (tb : List Char) : Option Nat :=
  let pre := "__TABLE_PLACEHOLDER_".toList
  if tb.take pre.length = pre then
    let r := tb.drop pre.length
    let ds := r.takeWhile (·.isDigit)
    if ds ≠ [] ∧ r.drop ds.length = "__".toList then
      some (ds.foldl (fun a c => a * 10 + (c.toNat - 48)) 0)
    else none
  else none

/-- The classifiers after the code-fence check: rule, quote, table, list,
    paragraph (lines 326–566). -/
def renderAfterCode (tb : List Char) : List Element :=
  if 3 ≤ tb.length ∧ tb.all (fun c => c = '-' ∨ c = '*' ∨ c = '_') then [.hr]
  else if tb.head? = some '>' then
    [.blockquote (parseInlineMarkdown (joinNL ((splitOnChar '\n' tb).map stripQuote)))]
  else
    match detectTable tb with
    | some td => [.table td.headers td.rows]
    | none =>
      match detectList tb with
      | some (ord, items) => [.list ord items]
      | none => paragraphOf tb

/-- Rendering of a table placeholder block (lines 55–200). -/
def renderPlaceholder (phs : List (List Char)) (i : Nat) : List Element :=
  match phs[i]? with
  | some tblk =>
    match detectTable tblk with
    | some td => [.table td.headers td.rows]
    | none => []
  | none => []

/-- The body of the `blocks.forEach` classifier (lines 49–567). -/
def renderBlock (phs : List (List Char)) (block : List Char) : List Element :=
  let tb := jsTrim block
  if tb = [] then []
  else
    match placeholderIdx tb with
    | some i => renderPlaceholder phs i
    | none =>
      match headerMatch (jsTrim ((splitOnChar '\n' tb).headD [])) with
      | some (lvl, htext) =>
        Element.header (headerLevel lvl) (parseInlineMarkdown htext) :: headerRest tb
      | none =>
        if tb.take 3 = "```".toList then
          match idxOf3 (tb.drop 3) with
          | some e => [codeElem (slice tb 3 (3 + e))]
          | none => renderAfterCode tb
        else renderAfterCode tb

/-! ### Table pre-pass (lines 18–43): the regex
    `/(\|[^\n]+\|\s*\n\|[\s\-:|]+\|\s*\n(?:\|[^\n]+\|\s*\n?)+)/g` is run with a
    small backtracking matcher returning candidate end positions in
    JavaScript priority order. -/

/-- A matcher maps a position to candidate end positions, best first. -/
def RM : Type := List Char → Nat → List Nat

/-- Literal character. -/
def rchar (c : Char) : RM := fun s p => if s[p]? = some c then [p + 1] else []

/-- Character class. -/
def rcls (f : Char → Bool) : RM := fun s p =>
  match s[p]? with
  | some c => if f c then [p + 1] else []
  | none => []

/-- Sequencing: all continuations of the first in priority order. -/
def rseq (a b : RM) : RM := fun s p => (a s p).flatMap (b s)

/-- Greedy star body: longer iteration chains first. -/
def rstarGo (a : RM) (s : List Char) : Nat → Nat → List Nat
  | 0, p => [p]
  | fuel + 1, p =>
    ((a s p).flatMap fun q => if p < q then rstarGo a s fuel q else []) ++ [p]

/-- Greedy `*`. -/
def rstarG (a : RM) : RM := fun s p => rstarGo a s (s.length + 1) p

/-- Greedy `+`. -/
def rplusG (a : RM) : RM := rseq a (rstarG a)

/-- Greedy `?`. -/
def ropt (a : RM) : RM := fun s p => a s p ++ [p]

/-- One data row: `\|[^\n]+\|\s*\n?`. -/
def dataRowRe : RM :=
  rseq (rchar '|') (rseq (rplusG (rcls (fun c => c ≠ '\n'))) (rseq (rchar '|')
    (rseq (rstarG (rcls isJsWs)) (ropt (rchar '\n')))))

/-- The full table pre-pass regex. -/
def tableRe : RM :=
  rseq (rchar '|') (rseq (rplusG (rcls (fun c => c ≠ '\n'))) (rseq (rchar '|')
    (rseq (rstarG (rcls isJsWs)) (rseq (rchar '\n') (rseq (rchar '|')
      (rseq (rplusG (rcls sepCls)) (rseq (rchar '|') (rseq (rstarG (rcls isJsWs))
        (rseq (rchar '\n') (rplusG dataRowRe))))))))))

/-- `tableRegex.exec` loop (lines 27–33): leftmost matches, resuming at each
    match end; matches are `(index, end)` pairs. -/
def tableExecFrom (s : List Char) : Nat → Nat → List (Nat × Nat)
  | 0, _ => []
  | fuel + 1, i =>
    if s.length < i then []
    else
      match (tableRe s i).head? with
      | some e => (i, e) :: tableExecFrom s fuel (max e (i + 1))
      | none => tableExecFrom s fuel (i + 1)

/-- All matches of the table pre-pass regex. -/
def tableMatches (s : List Char) : List (Nat × Nat) :=
  tableExecFrom s (s.length + 2) 0

/-- `` `__TABLE_PLACEHOLDER_${i}__` `` as characters. -/
def placeholderStr (i : Nat) : List Char :=
  "__TABLE_PLACEHOLDER_".toList ++ (Nat.repr i).toList ++ "__".toList

/-- One placeholder substitution (lines 40–42). -/
def spliceOne (t : List Char) (i a b : Nat) : List Char :=
  t.take a ++ ('\n' :: '\n' :: placeholderStr i ++ ['\n', '\n']) ++ t.drop b

/-- All substitutions, applied in reverse index order (lines 36–43). -/
def spliceAll (t : List Char) : List (Nat × (Nat × Nat)) → List Char
  | [] => t
  | (i, (a, b)) :: rest => spliceAll (spliceOne t i a b) rest

/-- `processedText.split(/\n\n+/)` (line 46); `fuel` at least the length. -/
def splitNNAux : Nat → List Char → List (List Char)
  | 0, s => [s]
  | fuel + 1, s =>
    match s with
    | [] => [[]]
    | '\n' :: '\n' :: rest => [] :: splitNNAux fuel (rest.dropWhile (· = '\n'))
    | c :: rest =>
      match splitNNAux fuel rest with
      | h :: t => (c :: h) :: t
      | [] => [[c]]

/-- Split a text into blocks at runs of two or more newlines. -/
def splitBlocks (s : List Char) : List (List Char) := splitNNAux (s.length + 1) s

/-- `parseMarkdown` (lines 12–570). -/
def parseMarkdown (text : List Char) : List Element :=
  if text = [] then []
  else
    let t := normalizeEol text
    let ms := tableMatches t
    let phs := ms.map fun m => jsTrim (slice t m.1 m.2)
    let processed := spliceAll t ms.enum.reverse
    (splitBlocks processed).flatMap (renderBlock phs)

/-! ### Auxiliary predicates used in claim statements -/

/-- Spans `sps` tile the interval from `a` to `b`: consecutive, non-empty,
    no gaps and no overlaps. -/
def covers : Nat → List (Nat × Nat) → Nat → Prop
  | a, [], b => a = b
  | a, (x, y) :: t, b => a = x ∧ x < y ∧ covers y t b

/-- Lower-bounded chain: every match starts at or after the bound, and each
    subsequent match starts at or after the previous match's end. -/
def ChainLB : Nat → List RMatch → Prop
  | _, [] => True
  | lb, m :: t => lb ≤ m.start ∧ ChainLB m.stop t

/-- Is a token an italic token? -/
def Token.isItalicTok : Token → Bool
  | .italic _ => true
  | _ => false

/-- Is an element a code block? -/
def Element.isCodeElem : Element → Bool
  | .codeBlock _ _ => true
  | _ => false

/-- Is an element a blockquote? -/
def Element.isQuoteElem : Element → Bool
  | .blockquote _ => true
  | _ => false

/-! ### Lemmas about normalization (claim C10) -/

theorem replCr_no_cr (s : List Char) : '\r' ∉ replCr s := by
  intro h
  rcases List.mem_map.mp h with ⟨c, _, hc⟩
  by_cases h' : c = '\r' <;> simp [h'] at hc

theorem replCrlf_of_no_cr : ∀ s : List Char, '\r' ∉ s → replCrlf s = s
  | [], _ => rfl
  | [_], _ => rfl
  | c :: d :: rest, h => by
    have hc : c ≠ '\r' := fun hc => h (by simp [hc])
    have hrest : '\r' ∉ d :: rest := fun hm => h (List.mem_cons_of_mem _ hm)
    rw [replCrlf, if_neg (fun hcd => hc hcd.1), replCrlf_of_no_cr (d :: rest) hrest]

theorem replCr_of_no_cr : ∀ s : List Char, '\r' ∉ s → replCr s = s
  | [], _ => rfl
  | c :: rest, h => by
    have hc : c ≠ '\r' := fun hc => h (by simp [hc])
    have hr : '\r' ∉ rest := fun hm => h (List.mem_cons_of_mem _ hm)
    show (if c = '\r' then '\n' else c) :: replCr rest = c :: rest
    rw [if_neg hc, replCr_of_no_cr rest hr]

theorem normalizeEol_idem (s : List Char) : normalizeEol (normalizeEol s) = normalizeEol s := by
  unfold normalizeEol
  rw [replCrlf_of_no_cr _ (replCr_no_cr _), replCr_of_no_cr _ (replCr_no_cr _)]

theorem replCrlf_ne_nil : ∀ s : List Char, s ≠ [] → replCrlf s ≠ []
  | [], h => absurd rfl h
  | [c], _ => by simp [replCrlf]
  | c :: d :: rest, _ => by
    rw [replCrlf]
    split <;> exact List.cons_ne_nil _ _

theorem normalizeEol_ne_nil (s : List Char) (h : s ≠ []) : normalizeEol s ≠ [] := by
  unfold normalizeEol replCr
  simpa using replCrlf_ne_nil s h

/-- Claim C10 (confirmed): `parseMarkdown` normalizes line endings itself:
    normalizing CRLF and lone CR to LF before the call does not change the
    output. -/
theorem parseMarkdown_normalize_invariant (text : List Char) :
    parseMarkdown text = parseMarkdown (normalizeEol text) := by
  by_cases h : text = []
  · subst h; rfl
  · unfold parseMarkdown
    rw [if_neg h, if_neg (normalizeEol_ne_nil text h), normalizeEol_idem]

/-- Claim C4 (confirmed): on ``"`*not italic*`"`` the inline parser emits a
    single code token with the verbatim content `*not italic*` and produces no
    italic token. -/
theorem inline_code_span_kept_whole :
    parseInlineMarkdown "`*not italic*`".toList = [Token.code "*not italic*".toList] ∧
      (parseInlineMarkdown "`*not italic*`".toList).all (fun t => ¬ t.isItalicTok) = true :=
  ⟨rfl, rfl⟩

/-- Claim C5 (confirmed): `detectList` on `"- a\n  - b\n  - c\n- d"` returns an
    unordered list with top-level items `a` (children `b`, `c`) and `d`. -/
theorem detectList_nested_example :
    detectList "- a\n  - b\n  - c\n- d".toList =
      some (false, [LItem.mk "a".toList [LItem.mk "b".toList [], LItem.mk "c".toList []],
                    LItem.mk "d".toList []]) := rfl

/-- Claim C6 (confirmed): `detectTable` on `"| A | B |\n| - | - |\n| 1 | 2 |"`
    returns headers `["A","B"]` and rows `[["1","2"]]`. -/
theorem detectTable_round_trip :
    detectTable "| A | B |\n| - | - |\n| 1 | 2 |".toList =
      some ⟨["A".toList, "B".toList], [["1".toList, "2".toList]]⟩ := rfl

/-- Claim C8 (confirmed): `"## Title\n- x\n- y"` renders as a level-2 header
    followed by a separate unordered list block with exactly the items `x`
    and `y`. -/
theorem header_then_separate_list :
    parseMarkdown "## Title\n- x\n- y".toList =
      [Element.header 2 [Token.text "Title".toList],
       Element.list false [LItem.mk "x".toList [], LItem.mk "y".toList []]] := rfl

/-- Claim C1, counterexample: on `"| a |\n| - |\n| 1 |"` the pre-pass extracts
    the whole document as a table region, its header row parses to a single
    column, and the rendered output is empty — the region's text does NOT
    appear in the output, contradicting the claim that it is left as plain
    text for paragraph handling. -/
theorem short_header_region_text_dropped :
    tableMatches (normalizeEol "| a |\n| - |\n| 1 |".toList) = [(0, 17)] ∧
      parseRow "| a |".toList = ["a".toList] ∧
      parseMarkdown "| a |\n| - |\n| 1 |".toList = [] :=
  ⟨rfl, rfl, rfl⟩

/-- Claim C9, counterexample: the block `">a\nb"` has a second line that is not
    prefixed with `>`, yet it is classified and rendered as a blockquote —
    the classification only looks at the first character. -/
theorem blockquote_without_all_lines_prefixed :
    parseMarkdown ">a\nb".toList = [Element.blockquote [Token.text "a\nb".toList]] ∧
      ((splitOnChar '\n' (jsTrim ">a\nb".toList)).all (fun l => l.take 1 = ['>'])) = false :=
  ⟨rfl, rfl⟩

/-! ### Table invariant (claim C7) -/

theorem collectRows_length (hlen : Nat) :
    ∀ ls, ∀ r ∈ collectRows hlen ls, r.length = hlen := by
  intro ls
  induction ls with
  | nil => intro r hr; simp [collectRows] at hr
  | cons line rest ih =>
    intro r hr
    rw [collectRows] at hr
    simp only [] at hr
    split at hr
    · simp at hr
    · split at hr
      · simp at hr
      · split at hr
        · simp at hr
        · split at hr
          · rcases List.mem_cons.mp hr with h | h
            · subst h; assumption
            · exact ih r h
          · rcases List.mem_cons.mp hr with h | h
            · subst h
              simp only [List.length_take, List.length_append, List.length_replicate]
              omega
            · exact ih r h

/-- Claim C7 (confirmed): whenever `detectTable` succeeds, the headers have at
    least two columns and every returned row has exactly `headers.length`
    cells (shorter rows padded with empty cells, longer ones truncated). -/
theorem detectTable_rows_normalized (block : List Char) (td : TableData)
    (h : detectTable block = some td) :
    2 ≤ td.headers.length ∧ ∀ r ∈ td.rows, r.length = td.headers.length := by
  unfold detectTable at h
  simp only [] at h
  split at h
  · exact absurd h (by simp)
  · split at h
    · exact absurd h (by simp)
    · split at h
      · exact absurd h (by simp)
      · split at h
        · exact absurd h (by simp)
        · split at h
          · exact absurd h (by simp)
          · split at h
            · exact absurd h (by simp)
            · rename_i hlen2 hrows
              rcases Option.some.inj h with rfl
              constructor
              · simp only [not_or, not_lt] at hlen2
                exact hlen2.2
              · exact collectRows_length _ _

/-- Witness for claim C7 at a concrete block whose data row is shorter than
    the header row and gets padded. -/
theorem detectTable_rows_normalized_witness :
    2 ≤ (TableData.mk ["A".toList, "B".toList] [["1".toList, []]]).headers.length ∧
      ∀ r ∈ (TableData.mk ["A".toList, "B".toList] [["1".toList, []]]).rows,
        r.length = (TableData.mk ["A".toList, "B".toList] [["1".toList, []]]).headers.length :=
  detectTable_rows_normalized "| A | B |\n| - | - |\n| 1 |".toList _ rfl

/-! ### Lemmas about block classification (claims C1, C2, C9) -/

theorem splitOnChar_ne_nil (c : Char) : ∀ l : List Char, splitOnChar c l ≠ []
  | [] => List.cons_ne_nil _ _
  | x :: rest => by
    unfold splitOnChar
    split
    · exact List.cons_ne_nil _ _
    · cases hs : splitOnChar c rest with
      | nil => simp
      | cons h t => simp

theorem splitOnChar_headD_cons (c x : Char) (l : List Char) (h : x ≠ c) :
    ∃ t, (splitOnChar c (x :: l)).headD [] = x :: t := by
  unfold splitOnChar
  rw [if_neg h]
  cases hs : splitOnChar c l with
  | nil => exact absurd hs (splitOnChar_ne_nil c l)
  | cons h0 t0 => exact ⟨h0, rfl⟩

theorem dropWhile_append_single (p : Char → Bool) (x : Char) (hx : p x = false) :
    ∀ l : List Char, (l ++ [x]).dropWhile p = l.dropWhile p ++ [x]
  | [] => by simp [List.dropWhile, hx]
  | a :: t => by
    by_cases ha : p a = true
    · simp only [List.cons_append, List.dropWhile_cons, ha, if_true,
        dropWhile_append_single p x hx t]
    · simp only [List.cons_append, List.dropWhile_cons, Bool.not_eq_true] at *
      simp [ha]

theorem jsTrim_cons_head (x : Char) (l : List Char) (hx : isJsWs x = false) :
    (jsTrim (x :: l)).head? = some x := by
  unfold jsTrim
  rw [List.dropWhile_cons, hx]
  simp [List.reverse_cons, dropWhile_append_single isJsWs x hx]

theorem headerMatch_none_of_head (l : List Char) (x : Char) (hl : l.head? = some x)
    (hx : x ≠ '#') : headerMatch l = none := by
  cases l with
  | nil => simp at hl
  | cons a rest =>
    have hax : a = x := Option.some.inj (by simpa using hl)
    unfold headerMatch
    rw [List.takeWhile_cons]
    simp [hax, hx]

theorem placeholderIdx_none_of_head (l : List Char) (x : Char) (hl : l.head? = some x)
    (hx : x ≠ '_') : placeholderIdx l = none := by
  cases l with
  | nil => simp at hl
  | cons a rest =>
    have hax : a = x := Option.some.inj (by simpa using hl)
    unfold placeholderIdx
    rw [if_neg]
    intro heq
    have h1 : (List.take "__TABLE_PLACEHOLDER_".toList.length (a :: rest)).head? =
        "__TABLE_PLACEHOLDER_".toList.head? := by rw [heq]
    rw [show "__TABLE_PLACEHOLDER_".toList.length = 19 + 1 from rfl,
      List.take_succ_cons] at h1
    apply hx
    rw [← hax]
    exact Option.some.inj (by simpa using h1)

theorem firstLine_head (tb : List Char) (x : Char) (h : tb.head? = some x)
    (hx1 : x ≠ '\n') (hx2 : isJsWs x = false) :
    (jsTrim ((splitOnChar '\n' tb).headD [])).head? = some x := by
  cases tb with
  | nil => simp at h
  | cons a rest =>
    have hax : a = x := Option.some.inj (by simpa using h)
    rw [hax]
    rcases splitOnChar_headD_cons '\n' x rest hx1 with ⟨t, ht⟩
    rw [ht]
    exact jsTrim_cons_head x t hx2

theorem paragraphOf_shape (t : List Char) :
    ∀ e ∈ paragraphOf t, ∃ ls, e = Element.paragraph ls := by
  intro e he
  unfold paragraphOf at he
  simp only [] at he
  split at he
  · simp at he
  · rcases List.mem_singleton.mp he with rfl
    exact ⟨_, rfl⟩

theorem headerRest_shape (tb : List Char) :
    ∀ e ∈ headerRest tb, (∃ o i, e = Element.list o i) ∨ (∃ ls, e = Element.paragraph ls) := by
  intro e he
  unfold headerRest at he
  simp only [] at he
  split at he
  · simp at he
  · split at he
    · simp at he
    · split at he
      · rcases List.mem_singleton.mp he with rfl
        exact Or.inl ⟨_, _, rfl⟩
      · exact Or.inr (paragraphOf_shape _ e he)

theorem renderPlaceholder_shape (phs : List (List Char)) (i : Nat) :
    ∀ e ∈ renderPlaceholder phs i, ∃ h r, e = Element.table h r := by
  intro e he
  unfold renderPlaceholder at he
  split at he
  · split at he
    · rcases List.mem_singleton.mp he with rfl
      exact ⟨_, _, rfl⟩
    · simp at he
  · simp at he

theorem codeElem_shape (x : List Char) : ∃ lang ct, codeElem x = Element.codeBlock lang ct := by
  unfold codeElem
  simp only []
  split
  · exact ⟨_, _, rfl⟩
  · exact ⟨_, _, rfl⟩

theorem renderAfterCode_no_code (tb : List Char) :
    ∀ e ∈ renderAfterCode tb, e.isCodeElem = false := by
  intro e he
  unfold renderAfterCode at he
  split at he
  · rcases List.mem_singleton.mp he with rfl; rfl
  · split at he
    · rcases List.mem_singleton.mp he with rfl; rfl
    · split at he
      · rcases List.mem_singleton.mp he with rfl; rfl
      · split at he
        · rcases List.mem_singleton.mp he with rfl; rfl
        · rcases paragraphOf_shape _ e he with ⟨ls, rfl⟩; rfl

theorem splitOnChar_two_le_of_contains (c : Char) :
    ∀ l : List Char, l.contains c = true → 2 ≤ (splitOnChar c l).length
  | [], h => by simp at h
  | a :: t, h => by
    unfold splitOnChar
    by_cases hac : a = c
    · rw [if_pos hac]
      cases hs : splitOnChar c t with
      | nil => exact absurd hs (splitOnChar_ne_nil c t)
      | cons u v => simp
    · rw [if_neg hac]
      have hct : t.contains c = true := by
        rw [List.contains_cons] at h
        rcases Bool.or_eq_true_iff.mp h with h | h
        · exact absurd (beq_iff_eq.mp h).symm hac
        · exact h
      have ih := splitOnChar_two_le_of_contains c t hct
      cases hs : splitOnChar c t with
      | nil => exact absurd hs (splitOnChar_ne_nil c t)
      | cons u v =>
        rw [hs] at ih
        simp at ih ⊢
        omega

theorem getD_zero_eq_headD (l : List (List Char)) (d : List Char) :
    l.getD 0 d = l.headD d := by
  cases l <;> simp [List.getD]

/-- If the first line of a candidate table block contains a pipe but parses to
    fewer than two columns, `detectTable` rejects the block. -/
theorem detectTable_none_of_short_header (tblk : List Char)
    (hpipe : (((splitOnChar '\n' tblk).map jsTrim).headD []).contains '|' = true)
    (hshort : (parseRow (((splitOnChar '\n' tblk).map jsTrim).headD [])).length < 2) :
    detectTable tblk = none := by
  unfold detectTable
  simp only []
  by_cases hlen : (List.map jsTrim (splitOnChar '\n' tblk)).length < 2
  · rw [if_pos hlen]
  · rw [if_neg hlen]
    cases hcons : List.map jsTrim (splitOnChar '\n' tblk) with
    | nil => rw [hcons] at hlen; simp at hlen
    | cons l0 rest =>
      rw [hcons] at hpipe hshort hlen
      simp only [List.headD_cons] at hpipe hshort
      rw [List.findIdx?_cons, if_pos (by
        simp only [decide_eq_true_eq]
        exact ⟨hpipe, splitOnChar_two_le_of_contains '|' l0 hpipe⟩)]
      simp only []
      have h1 : ¬((l0 :: rest).length ≤ 0 + 1) := by
        simp only [List.length_cons] at hlen ⊢
        omega
      rw [if_neg h1]
      by_cases hsep : hasSeparator ((l0 :: rest).getD (0 + 1) []) = true
      · rw [if_neg (not_not_intro hsep)]
        have h2 : (parseRow ((l0 :: rest).getD 0 [])).length = 0 ∨
            (parseRow ((l0 :: rest).getD 0 [])).length < 2 := by
          rw [show (l0 :: rest).getD 0 [] = l0 from rfl]
          exact Or.inr hshort
        rw [if_pos h2]
      · rw [if_pos hsep]

theorem quote_mem_renderAfterCode (tb : List Char) (c : List Token)
    (hq : Element.blockquote c ∈ renderAfterCode tb) : tb.head? = some '>' := by
  unfold renderAfterCode at hq
  split at hq
  · simp at hq
  · split at hq
    · assumption
    · split at hq
      · simp at hq
      · split at hq
        · simp at hq
        · rcases paragraphOf_shape _ _ hq with ⟨ls, hls⟩
          exact absurd hls (by intro h; cases h)

/-- Claim C1 (amended): if a pre-pass-extracted region's header row contains a
    pipe but parses to fewer than two columns, the region is not rendered as
    a table and the placeholder block renders nothing at all — the region's
    text is dropped from the output, not kept as plain text. -/
theorem placeholder_short_header_renders_nothing (phs : List (List Char))
    (block tblk : List Char) (i : Nat)
    (hpl : placeholderIdx (jsTrim block) = some i)
    (hget : phs[i]? = some tblk)
    (hpipe : (((splitOnChar '\n' tblk).map jsTrim).headD []).contains '|' = true)
    (hshort : (parseRow (((splitOnChar '\n' tblk).map jsTrim).headD [])).length < 2) :
    renderBlock phs block = [] := by
  have htb : jsTrim block ≠ [] := by
    intro h0
    rw [h0, show placeholderIdx [] = none from rfl] at hpl
    exact Option.noConfusion hpl
  unfold renderBlock
  simp only []
  rw [if_neg htb]
  simp only [hpl]
  unfold renderPlaceholder
  simp only [hget, detectTable_none_of_short_header tblk hpipe hshort]

/-- Witness for the amended claim C1: a one-column region extracted by the
    pre-pass renders to nothing. -/
theorem placeholder_short_header_renders_nothing_witness :
    renderBlock ["| a |\n| - |\n| 1 |".toList] "__TABLE_PLACEHOLDER_0__".toList = [] :=
  placeholder_short_header_renders_nothing _ _ "| a |\n| - |\n| 1 |".toList 0
    (by rfl) (by rfl) (by rfl) (by decide)

/-- Claim C2 (confirmed): a block starting with a triple-backtick fence but
    containing no closing fence is not rendered as a code block: classification
    falls through to the rule / quote / table / list / paragraph chain, and no
    code-block element is produced. -/
theorem unterminated_fence_not_code (phs : List (List Char)) (block : List Char)
    (h3 : (jsTrim block).take 3 = "```".toList)
    (hno : idxOf3 ((jsTrim block).drop 3) = none) :
    renderBlock phs block = renderAfterCode (jsTrim block) ∧
      ∀ e ∈ renderBlock phs block, e.isCodeElem = false := by
  have htb : jsTrim block ≠ [] := by
    intro h0; rw [h0] at h3; exact absurd h3 (by decide)
  have hhead : (jsTrim block).head? = some backtick := by
    have h := congrArg List.head? h3
    rw [List.head?_take, if_neg (by decide)] at h
    exact h.trans (by decide)
  have hph : placeholderIdx (jsTrim block) = none :=
    placeholderIdx_none_of_head _ _ hhead (by decide)
  have hfl := firstLine_head (jsTrim block) backtick hhead (by decide) (by decide)
  have hhm : headerMatch (jsTrim ((splitOnChar '\n' (jsTrim block)).headD [])) = none :=
    headerMatch_none_of_head _ _ hfl (by decide)
  have heq : renderBlock phs block = renderAfterCode (jsTrim block) := by
    unfold renderBlock
    simp only []
    rw [if_neg htb]
    simp only [hph, hhm]
    rw [if_pos h3]
    simp only [hno]
  exact ⟨heq, by rw [heq]; exact renderAfterCode_no_code _⟩

/-- Witness for claim C2 at the spec's example `"```js\ncode"`. -/
theorem unterminated_fence_not_code_witness :
    renderBlock [] "```js\ncode".toList = renderAfterCode (jsTrim "```js\ncode".toList) ∧
      ∀ e ∈ renderBlock [] "```js\ncode".toList, e.isCodeElem = false :=
  unterminated_fence_not_code [] _ (by rfl) (by rfl)

/-- Claim C9 (amended): a block is classified and rendered as a blockquote
    exactly when its trimmed text starts with `>` — only the first character
    is examined, later lines need no `>` prefix — and each line then has a
    leading `>` plus one optional following whitespace character stripped
    before inline parsing. -/
theorem blockquote_iff_first_char (phs : List (List Char)) (block : List Char)
    (htb : jsTrim block ≠ []) :
    ((∃ c, Element.blockquote c ∈ renderBlock phs block) ↔
        (jsTrim block).head? = some '>') ∧
    ((jsTrim block).head? = some '>' →
      renderBlock phs block =
        [Element.blockquote (parseInlineMarkdown
          (joinNL ((splitOnChar '\n' (jsTrim block)).map stripQuote)))]) := by
  have hrender : (jsTrim block).head? = some '>' →
      renderBlock phs block =
        [Element.blockquote (parseInlineMarkdown
          (joinNL ((splitOnChar '\n' (jsTrim block)).map stripQuote)))] := by
    intro hd
    have hph := placeholderIdx_none_of_head _ _ hd (by decide)
    have hfl := firstLine_head (jsTrim block) '>' hd (by decide) (by decide)
    have hhm := headerMatch_none_of_head _ _ hfl (by decide)
    have h3 : ¬((jsTrim block).take 3 = "```".toList) := by
      intro heq
      have h := congrArg List.head? heq
      rw [List.head?_take, if_neg (by decide), hd] at h
      exact absurd (Option.some.inj h) (by decide)
    have hrule : ¬(3 ≤ (jsTrim block).length ∧
        (jsTrim block).all (fun c => c = '-' ∨ c = '*' ∨ c = '_') = true) := by
      intro hand
      cases hcons : jsTrim block with
      | nil => exact htb hcons
      | cons a rest =>
        have ha : a = '>' := Option.some.inj (by rw [hcons] at hd; simpa using hd)
        have hall := hand.2
        rw [hcons, List.all_cons, ha] at hall
        exact absurd (Bool.and_eq_true_iff.mp hall).1 (by decide)
    unfold renderBlock
    simp only []
    rw [if_neg htb]
    simp only [hph, hhm]
    rw [if_neg h3]
    unfold renderAfterCode
    rw [if_neg hrule, if_pos hd]
  have hfwd : (∃ c, Element.blockquote c ∈ renderBlock phs block) →
      (jsTrim block).head? = some '>' := by
    rintro ⟨c, hc⟩
    unfold renderBlock at hc
    simp only [] at hc
    split at hc
    · simp at hc
    · split at hc
      · rcases renderPlaceholder_shape _ _ _ hc with ⟨h, r, heq⟩
        exact absurd heq (by intro h'; cases h')
      · split at hc
        · rcases List.mem_cons.mp hc with heq | hmem
          · exact absurd heq (by intro h'; cases h')
          · rcases headerRest_shape _ _ hmem with ⟨o, i, heq⟩ | ⟨ls, heq⟩ <;>
              exact absurd heq (by intro h'; cases h')
        · split at hc
          · split at hc
            · have hmem := List.mem_singleton.mp hc
              rcases codeElem_shape _ with ⟨lang, ct, hce⟩
              rw [hce] at hmem
              cases hmem
            · exact quote_mem_renderAfterCode _ _ hc
          · exact quote_mem_renderAfterCode _ _ hc
  refine ⟨⟨hfwd, fun hd => ?_⟩, hrender⟩
  rw [hrender hd]
  exact ⟨_, List.mem_singleton.mpr rfl⟩

/-- Witness for the amended claim C9 at the block `"> hi"`. -/
theorem blockquote_iff_first_char_witness :
    ((∃ c, Element.blockquote c ∈ renderBlock [] "> hi".toList) ↔
        (jsTrim "> hi".toList).head? = some '>') ∧
    ((jsTrim "> hi".toList).head? = some '>' →
      renderBlock [] "> hi".toList =
        [Element.blockquote (parseInlineMarkdown
          (joinNL ((splitOnChar '\n' (jsTrim "> hi".toList)).map stripQuote)))]) :=
  blockquote_iff_first_char [] _ (by decide)

/-! ### Inline parser invariants (claim C3) -/

/-- A match is well formed for `s`: non-empty span ending within the string. -/
def MatchOK (s : List Char) (m : RMatch) : Prop :=
  m.start < m.stop ∧ m.stop ≤ s.length

theorem findStopFrom_le (p : Char → Bool) : ∀ l : List Char, findStopFrom p l ≤ l.length
  | [] => Nat.le_refl 0
  | c :: rest => by
    unfold findStopFrom
    split
    · simp
    · simpa using findStopFrom_le p rest

theorem lt_of_getElem?_some {s : List Char} {n : Nat} {c : Char}
    (h : s[n]? = some c) : n < s.length := by
  by_contra hn
  rw [List.getElem?_eq_none (by omega)] at h
  exact Option.noConfusion h

theorem stopIdx_le (p : Char → Bool) (s : List Char) (r : Nat)
    (h : r < stopIdx p s r) : stopIdx p s r ≤ s.length := by
  have hf := findStopFrom_le p (s.drop r)
  rw [List.length_drop] at hf
  unfold stopIdx at *
  omega

theorem lastBoundary_ok (s : List Char) (lo : Nat) :
    ∀ n j, lastBoundary s lo n = some j → lo < j ∧ j ≤ n
  | 0, j, h => Option.noConfusion h
  | n + 1, j, h => by
    unfold lastBoundary at h
    split at h
    · exact Option.noConfusion h
    · split at h
      · rcases Option.some.inj h with rfl
        omega
      · have := lastBoundary_ok s lo n j h
        omega

theorem codeMatchAt_ok (s : List Char) (i : Nat) (m : RMatch)
    (h : codeMatchAt s i = some m) : MatchOK s m := by
  unfold codeMatchAt at h
  simp only [] at h
  split at h
  · split at h
    · rcases Option.some.inj h with rfl
      rename_i hk
      have h1 := lt_of_getElem?_some hk.1
      have h2 := hk.2
      dsimp only [MatchOK]
      omega
    · exact Option.noConfusion h
  · exact Option.noConfusion h

theorem linkMatchAt_ok (s : List Char) (i : Nat) (m : RMatch)
    (h : linkMatchAt s i = some m) : MatchOK s m := by
  unfold linkMatchAt at h
  simp only [] at h
  split at h
  · split at h
    · split at h
      · rcases Option.some.inj h with rfl
        rename_i hk1 hk2
        have h1 := lt_of_getElem?_some hk2.1
        have h2 := hk1.2.1
        have h3 := hk2.2
        dsimp only [MatchOK]
        omega
      · exact Option.noConfusion h
    · exact Option.noConfusion h
  · exact Option.noConfusion h

theorem autoMatchAt_ok (s : List Char) (i : Nat) (m : RMatch)
    (h : autoMatchAt s i = some m) : MatchOK s m := by
  unfold autoMatchAt at h
  simp only [] at h
  split at h
  · split at h
    · exact Option.noConfusion h
    · rename_i r hr
      split at h
      · rename_i hrk
        split at h
        · rename_i j hj
          rcases Option.some.inj h with rfl
          have hok := lastBoundary_ok s r _ j hj
          have hkle := stopIdx_le _ s r hrk
          have hri : i + 7 ≤ r := by
            split at hr
            · rcases Option.some.inj hr with rfl; omega
            · split at hr
              · rcases Option.some.inj hr with rfl; omega
              · exact Option.noConfusion hr
          dsimp only [MatchOK]
          omega
        · exact Option.noConfusion h
      · exact Option.noConfusion h
  · exact Option.noConfusion h

theorem boldMatchAt_ok (s : List Char) (i : Nat) (m : RMatch)
    (h : boldMatchAt s i = some m) : MatchOK s m := by
  unfold boldMatchAt at h
  simp only [] at h
  split at h
  · split at h
    · rcases Option.some.inj h with rfl
      rename_i hk
      have h1 := lt_of_getElem?_some hk.2.1
      have h2 := hk.2.2
      dsimp only [MatchOK]
      omega
    · exact Option.noConfusion h
  · exact Option.noConfusion h

theorem italMatchAt_ok (s : List Char) (i : Nat) (m : RMatch)
    (h : italMatchAt s i = some m) : MatchOK s m := by
  unfold italMatchAt at h
  simp only [] at h
  split at h
  · split at h
    · split at h
      · rcases Option.some.inj h with rfl
        rename_i hk
        have h1 := lt_of_getElem?_some hk.1
        have h2 := hk.2.1
        dsimp only [MatchOK]
        omega
      · exact Option.noConfusion h
    · exact Option.noConfusion h
  · exact Option.noConfusion h

theorem execFrom_ok (mAt : List Char → Nat → Option RMatch) (s : List Char)
    (hok : ∀ i m, mAt s i = some m → MatchOK s m) :
    ∀ fuel i m, m ∈ execFrom mAt s fuel i → MatchOK s m := by
  intro fuel
  induction fuel with
  | zero => intro i m hm; simp [execFrom] at hm
  | succ f ih =>
    intro i m hm
    unfold execFrom at hm
    split at hm
    · simp at hm
    · split at hm
      · rcases List.mem_cons.mp hm with rfl | hm2
        · exact hok _ _ (by assumption)
        · exact ih _ _ hm2
      · exact ih _ _ hm

theorem allMatches_ok (s : List Char) : ∀ m ∈ allMatches s, MatchOK s m := by
  intro m hm
  unfold allMatches at hm
  simp only [List.mem_append] at hm
  rcases hm with ((((h | h) | h) | h) | h)
  · exact execFrom_ok codeMatchAt s (codeMatchAt_ok s) _ _ _ h
  · exact execFrom_ok linkMatchAt s (linkMatchAt_ok s) _ _ _ h
  · exact execFrom_ok autoMatchAt s (autoMatchAt_ok s) _ _ _ h
  · exact execFrom_ok boldMatchAt s (boldMatchAt_ok s) _ _ _ h
  · exact execFrom_ok italMatchAt s (italMatchAt_ok s) _ _ _ h

theorem mem_insertByStart (m x : RMatch) :
    ∀ l : List RMatch, x ∈ insertByStart m l → x = m ∨ x ∈ l
  | [], h => Or.inl (List.mem_singleton.mp h)
  | b :: t, h => by
    unfold insertByStart at h
    split at h
    · rcases List.mem_cons.mp h with rfl | h2
      · exact Or.inr (List.mem_cons_self _ _)
      · rcases mem_insertByStart m x t h2 with h3 | h3
        · exact Or.inl h3
        · exact Or.inr (List.mem_cons_of_mem _ h3)
    · rcases List.mem_cons.mp h with rfl | h2
      · exact Or.inl rfl
      · exact Or.inr h2

theorem mem_sortByStart (x : RMatch) (l : List RMatch) (h : x ∈ sortByStart l) : x ∈ l := by
  unfold sortByStart at h
  suffices hgen : ∀ l acc, x ∈ List.foldl (fun a m => insertByStart m a) acc l →
      x ∈ acc ∨ x ∈ l by
    rcases hgen l [] h with h2 | h2
    · simp at h2
    · exact h2
  intro l
  induction l with
  | nil => intro acc h2; exact Or.inl h2
  | cons m t ih =>
    intro acc h2
    rcases ih (insertByStart m acc) h2 with h3 | h3
    · rcases mem_insertByStart m x acc h3 with rfl | h4
      · exact Or.inr (List.mem_cons_self _ _)
      · exact Or.inl h4
    · exact Or.inr (List.mem_cons_of_mem _ h3)

theorem sweep_subset : ∀ (lb : Nat) (l : List RMatch) (m : RMatch),
    m ∈ sweep lb l → m ∈ l
  | _, [], _, h => absurd h (List.not_mem_nil _)
  | lb, b :: t, m, h => by
    unfold sweep at h
    split at h
    · rcases List.mem_cons.mp h with rfl | h2
      · exact List.mem_cons_self _ _
      · exact List.mem_cons_of_mem _ (sweep_subset _ _ _ h2)
    · exact List.mem_cons_of_mem _ (sweep_subset _ _ _ h)

theorem sweep_chainLB : ∀ (lb : Nat) (l : List RMatch), ChainLB lb (sweep lb l)
  | _, [] => trivial
  | lb, b :: t => by
    unfold sweep
    split
    · exact ⟨by assumption, sweep_chainLB b.stop t⟩
    · exact sweep_chainLB lb t

theorem chainLB_chain' : ∀ (l : List RMatch) (lb : Nat), ChainLB lb l →
    List.Chain' (fun a b => a.stop ≤ b.start) l
  | [], _, _ => List.chain'_nil
  | [m], _, _ => by simp
  | m :: b :: t, lb, h => by
    rw [List.chain'_cons]
    exact ⟨h.2.1, chainLB_chain' (b :: t) m.stop h.2⟩

theorem buildSpanned_covers (s : List Char) :
    ∀ (ms : List RMatch) (cur : Nat), cur ≤ s.length → ChainLB cur ms →
      (∀ m ∈ ms, MatchOK s m) →
      covers cur (List.map Prod.fst (buildSpanned s cur ms)) s.length
  | [], cur, hcur, _, _ => by
    unfold buildSpanned
    by_cases h : cur < s.length
    · rw [if_pos h]
      exact ⟨rfl, h, rfl⟩
    · rw [if_neg h]
      show cur = s.length
      omega
  | m :: t, cur, hcur, hch, hok => by
    have hmok := hok m (List.mem_cons_self m t)
    have hts : ∀ x ∈ t, MatchOK s x := fun x hx => hok x (List.mem_cons_of_mem m hx)
    have ih := buildSpanned_covers s t m.stop hmok.2 hch.2 hts
    unfold buildSpanned
    by_cases hg : cur < m.start
    · rw [if_pos hg]
      exact ⟨rfl, hg, rfl, hmok.1, ih⟩
    · rw [if_neg hg]
      exact ⟨Nat.le_antisymm hch.1 (Nat.not_lt.mp hg), hmok.1, ih⟩

theorem buildParts_eq_spanned (s : List Char) :
    ∀ (ms : List RMatch) (cur : Nat),
      buildParts s cur ms = List.map Prod.snd (buildSpanned s cur ms)
  | [], cur => by
    unfold buildParts buildSpanned
    by_cases h : cur < s.length <;> simp [h]
  | m :: t, cur => by
    unfold buildParts buildSpanned
    by_cases h : cur < m.start <;> simp [h, buildParts_eq_spanned s t m.stop]

theorem buildParts_ne_nil (s : List Char) (hs : s ≠ []) (ms : List RMatch) :
    buildParts s 0 ms ≠ [] := by
  cases ms with
  | nil =>
    unfold buildParts
    rw [if_pos (List.length_pos.mpr hs)]
    simp
  | cons m t =>
    unfold buildParts
    by_cases h : 0 < m.start <;> simp [h]

theorem parseInlineMarkdown_eq_buildParts (s : List Char) (hs : s ≠ []) :
    parseInlineMarkdown s = buildParts s 0 (validMatches s) := by
  unfold parseInlineMarkdown
  rw [if_neg hs]
  cases h : buildParts s 0 (validMatches s) with
  | nil => exact absurd h (buildParts_ne_nil s hs _)
  | cons a t => rfl

/-- Claim C3 (confirmed): the kept matches of the inline parser are pairwise
    non-overlapping, ordered by start offset, and non-empty within bounds;
    every gap between kept matches is emitted as a plain-text token; and the
    source spans of the emitted tokens tile the whole input with no gaps and
    no overlaps. -/
theorem inline_tokens_cover_input (s : List Char) :
    List.Chain' (fun a b => a.stop ≤ b.start) (validMatches s) ∧
      (∀ m ∈ validMatches s, m.start < m.stop ∧ m.stop ≤ s.length) ∧
      covers 0 (List.map Prod.fst (buildSpanned s 0 (validMatches s))) s.length ∧
      parseInlineMarkdown s = List.map Prod.snd (buildSpanned s 0 (validMatches s)) := by
  have hok : ∀ m ∈ validMatches s, MatchOK s m := by
    intro m hm
    exact allMatches_ok s m (mem_sortByStart m _ (sweep_subset _ _ m hm))
  have hch : ChainLB 0 (validMatches s) := sweep_chainLB 0 _
  refine ⟨chainLB_chain' _ 0 hch, hok, ?_, ?_⟩
  · exact buildSpanned_covers s _ 0 (Nat.zero_le _) hch hok
  · by_cases hs : s = []
    · subst hs; rfl
    · rw [parseInlineMarkdown_eq_buildParts s hs]
      exact buildParts_eq_spanned s _ 0

end Skillscope
